import Mathlib

/-!
Verification development for the mapping engine of the `id-translation`
repository (`id_translation.mapping.Mapper` and its collaborators).

The Python sources of the mapping engine itself are not part of this tree;
only its documentation (`docs/documentation/mapping-primer.rst`) and
configuration examples are. All engine definitions below are therefore
modelled from the specification, as close to its words as the model allows.

Modelling conventions:
* values, candidates and contexts are strings;
* scores are rationals extended with plus and minus infinity
  (the spec's `float` sentinels);
* user-supplied functions (score, filter, alias, runtime-override
  functions) are plain Lean functions;
* alias functions are assumed to rewrite the candidate list positionally
  (the combination `zipMax` keeps the accumulated entry when a variant
  produces no aligned score, so a shrinking alias can never hurt a cell).
-/

namespace IdTranslation

/-- Default string used for out-of-range list reads; never observed on
in-range indices. -/
def dS : String := ""

/-- Modelled from the spec: a score matrix cell is a real number extended
with plus and minus infinity (spec section 3, ScoreMatrix). Missing from
src: the float sentinels used by `Mapper.compute_scores`. -/
inductive Score where
  | negInf : Score
  | fin : ℚ → Score
  | posInf : Score
deriving DecidableEq

/-- True exactly on the forced-match sentinel plus infinity. -/
def Score.isInf : Score → Bool
  | .posInf => true
  | _ => false

/-- Modelled from the spec: threshold test of the Matcher (spec section 4.3,
Threshold) — a cell is matchable when it is plus infinity or a finite score
at or above `minScore`; minus infinity and finite scores strictly below the
threshold are unmatchable. Missing from src: the `min_score` check of
`Mapper.to_directional_mapping`. -/
def matchable (s : Score) (minScore : ℚ) : Bool :=
  match s with
  | .negInf => false
  | .fin q => decide (minScore ≤ q)
  | .posInf => true

/-- Indices of candidates that are still available and matchable for a row. -/
def matchableIdx (row : List Score) (avail : List Bool) (minScore : ℚ) : List Nat :=
  (List.range row.length).filter fun i =>
    avail.getD i false && matchable (row.getD i Score.negInf) minScore

/-- The finite scores found at the given indices of a row. -/
def finScoresAt (row : List Score) (idxs : List Nat) : List ℚ :=
  idxs.filterMap fun i =>
    match row.getD i Score.negInf with
    | .fin q => some q
    | _ => none

/-- Maximum of a list of rationals, `none` on the empty list. -/
def maxQ : List ℚ → Option ℚ
  | [] => none
  | q :: rest =>
    match maxQ rest with
    | none => some q
    | some m => some (max q m)

/-- Outcome of the per-value selection step of the Matcher. -/
inductive Selection where
  | ambiguous : Selection
  | unmatched : Selection
  | chosen : Nat → Selection
deriving DecidableEq

/-- Modelled from the spec: per-value selection of the Matcher for a
cardinality that requires a single best candidate (spec section 4.3,
Ambiguity / Resolution order; mapping primer, `AmbiguousScoreError` note).
Two or more still-available forced (+inf) candidates are ambiguous; a single
forced candidate wins over any finite score; otherwise the strictly-best
finite score at or above the threshold wins, and a tie at that best score is
ambiguous. Missing from src: the selection logic behind
`Mapper.to_directional_mapping`. -/
def selectBest (row : List Score) (avail : List Bool) (minScore : ℚ) : Selection :=
  let m := matchableIdx row avail minScore
  let infs := m.filter fun i => (row.getD i Score.negInf).isInf
  if 2 ≤ infs.length then .ambiguous
  else
    match infs with
    | [i] => .chosen i
    | _ =>
      match maxQ (finScoresAt row m) with
      | none => .unmatched
      | some q =>
        let ties := m.filter fun i => decide (row.getD i Score.negInf = Score.fin q)
        if 2 ≤ ties.length then .ambiguous
        else
          match ties with
          | [i] => .chosen i
          | _ => .unmatched

/-- A row exhibits a genuine finite tie: two distinct still-available
matchable candidates share the strictly-best finite score, and no
still-available forced (+inf) candidate breaks the tie. -/
def finiteTieAt (row : List Score) (avail : List Bool) (minScore : ℚ) : Prop :=
  ∃ i j q, i ≠ j ∧
    i ∈ matchableIdx row avail minScore ∧
    j ∈ matchableIdx row avail minScore ∧
    row.getD i Score.negInf = Score.fin q ∧
    row.getD j Score.negInf = Score.fin q ∧
    (∀ k ∈ matchableIdx row avail minScore,
      ∀ q', row.getD k Score.negInf = Score.fin q' → q' ≤ q) ∧
    (∀ k ∈ matchableIdx row avail minScore,
      (row.getD k Score.negInf).isInf = false)

/-- A row exhibits conflicting forced matches: two distinct still-available
candidates both carry the forced score plus infinity. -/
def infTieAt (row : List Score) (avail : List Bool) (minScore : ℚ) : Prop :=
  ∃ i j, i ≠ j ∧
    i ∈ matchableIdx row avail minScore ∧
    j ∈ matchableIdx row avail minScore ∧
    row.getD i Score.negInf = Score.posInf ∧
    row.getD j Score.negInf = Score.posInf

/-- Modelled from the spec: the four assignment-multiplicity modes
(spec section 4.3, Cardinality semantics). -/
inductive Cardinality where
  | OneToOne : Cardinality
  | OneToMany : Cardinality
  | ManyToOne : Cardinality
  | ManyToMany : Cardinality
deriving DecidableEq

/-- Modelled from the spec: the `on_unmapped` policy of the facade
(spec section 4.4). -/
inductive Policy where
  | raiseError : Policy
  | warn : Policy
  | ignore : Policy
deriving DecidableEq

/-- Modelled from the spec: the error taxonomy of the engine
(spec section 7). -/
inductive MappingError where
  | scoringDisabled : MappingError
  | ambiguousScore : MappingError
  | unmappedValues : List String → MappingError
deriving DecidableEq

/-- Context identifier scoping overrides and filters; `none` is the global
context. -/
abbrev Context := Option String

/-- Modelled from the spec: `ScoreFunction(value, candidate, context) ->
float` (spec section 6). -/
abbrev ScoreFn := String → String → Context → ℚ

/-- Modelled from the spec: `FilterFunction(value, candidates, context) ->
subset(candidates)` (spec section 6); the returned list is the kept
subset. -/
abbrev FilterFn := String → List String → Context → List String

/-- Modelled from the spec: `AliasFunction(value, candidates, context) ->
(value, candidates)` (spec section 6). -/
abbrev AliasFn := String → List String → Context → String × List String

/-- Modelled from the spec: `UserOverrideFunction(value, candidates,
context) -> candidate | none`, the runtime override (spec section 6). -/
abbrev UserOverrideFn := String → List String → Context → Option String

/-- Modelled from the spec: an ordered heuristic — either a short-circuit
(a filter-typed function whose returned candidates are treated as a forced
override) or an alias rewriting the scoring inputs (spec section 4.2,
Heuristic augmentation). -/
inductive Heuristic where
  | shortCircuit : FilterFn → Heuristic
  | aliasing : AliasFn → Heuristic

/-- Modelled from the spec: the base score function slot, which is either
the explicit "disabled" function (override-only mode) or a user score
function (spec sections 4.2 and 7, ScoringDisabledError). -/
inductive BaseScore where
  | disabled : BaseScore
  | score : ScoreFn → BaseScore

/-- Modelled from the spec: the two-level static override table — a global
layer plus per-context layers, the context layer taking precedence
(spec sections 3 and 4.1, OverrideEntry / OverrideTable). -/
structure OverrideTable where
  globalLayer : List (String × String)
  byContext : List (String × List (String × String))

/-- Lookup in the context layer of the static override table. -/
def ctxLookup (tbl : OverrideTable) (v : String) (ctx : Context) : Option String :=
  ctx.bind fun c => (tbl.byContext.lookup c).bind fun layer => layer.lookup v

/-- Modelled from the spec: `lookup(value, context) -> candidate | none`
with the context-scoped layer preferred over the global layer
(spec section 4.1). -/
def staticLookup (tbl : OverrideTable) (v : String) (ctx : Context) : Option String :=
  match ctxLookup tbl v ctx with
  | some c => some c
  | none => tbl.globalLayer.lookup v

/-- Modelled from the spec: full override precedence — runtime override
first, then static context-scoped, then static global (spec section 4.1). -/
def overrideChoice (rof : Option UserOverrideFn) (tbl : OverrideTable)
    (v : String) (cs : List String) (ctx : Context) : Option String :=
  match rof.bind fun f => f v cs ctx with
  | some c => some c
  | none => staticLookup tbl v ctx

/-- Modelled from the spec: immutable engine configuration
(spec section 6, Configuration surface). -/
structure MapperConfig where
  overrides : OverrideTable
  filters : List FilterFn
  heuristics : List Heuristic
  base : BaseScore
  minScore : ℚ
  cardinality : Cardinality
  onUnmapped : Policy

/-- Score row forced by an override: plus infinity at every cell holding the
chosen candidate, minus infinity at every other cell (spec section 4.1). -/
def forcedRow (cs : List String) (c : String) : List Score :=
  cs.map fun cand => if cand = c then Score.posInf else Score.negInf

/-- A candidate passes filtering when every configured filter keeps it
(spec section 4.2 step 1). -/
def passes (filters : List FilterFn) (v : String) (cs : List String)
    (ctx : Context) (cand : String) : Bool :=
  filters.all fun f => (f v cs ctx).contains cand

/-- Base scores of one value against every candidate, in candidate order. -/
def scoreAll (f : ScoreFn) (v : String) (cs : List String) (ctx : Context) : List ℚ :=
  cs.map fun c => f v c ctx

/-- Pointwise maximum keeping the left entry when the right list is shorter;
used to combine heuristic score variants per cell. -/
def zipMax : List ℚ → List ℚ → List ℚ
  | [], _ => []
  | a, [] => a
  | x :: xs, y :: ys => max x y :: zipMax xs ys

/-- Modelled from the spec: heuristic augmentation (spec section 4.2 step 3
and Heuristic augmentation detail). Heuristics are applied in declaration
order; a short-circuit returning a non-empty subset forces those candidates
(`inl` of their positional indices); each alias rewrites the inputs, the
base score is recomputed and the per-cell maximum is kept (`inr`). -/
def runHeuristics (f : ScoreFn) :
    List Heuristic → String → List String → Context → List ℚ → Sum (List Nat) (List ℚ)
  | [], _, _, _, acc => .inr acc
  | .shortCircuit g :: rest, v, cs, ctx, acc =>
    let kept := g v cs ctx
    if kept.isEmpty then runHeuristics f rest v cs ctx acc
    else .inl ((List.range cs.length).filter fun i => kept.contains (cs.getD i dS))
  | .aliasing g :: rest, v, cs, ctx, acc =>
    let p := g v cs ctx
    runHeuristics f rest p.1 p.2 ctx (zipMax acc (scoreAll f p.1 p.2 ctx))

/-- Modelled from the spec: short-circuit scan used in override-only mode,
where no base score exists — the first short-circuit heuristic returning a
non-empty subset forces those candidates; aliases only rewrite the inputs
(mapping primer, Override-only mapping). -/
def heurForced : List Heuristic → String → List String → Context → Option (List Nat)
  | [], _, _, _ => none
  | .shortCircuit g :: rest, v, cs, ctx =>
    let kept := g v cs ctx
    if kept.isEmpty then heurForced rest v cs ctx
    else some ((List.range cs.length).filter fun i => kept.contains (cs.getD i dS))
  | .aliasing g :: rest, v, cs, ctx =>
    let p := g v cs ctx
    heurForced rest p.1 p.2 ctx

/-- Row assembly for a scored value: cells excluded by filtering stay at
minus infinity, the rest receive their (possibly heuristic-augmented)
finite score (spec section 4.2 steps 1-4). -/
def assembleScored (cs : List String) (keep : List Bool) (accs : List ℚ) : List Score :=
  (List.range cs.length).map fun i =>
    if keep.getD i false then Score.fin (accs.getD i 0) else Score.negInf

/-- Row assembly for a short-circuited value: cells excluded by filtering
stay at minus infinity (cells fixed in step 1 are never altered), forced
cells become plus infinity, the rest minus infinity (spec section 4.2). -/
def assembleForced (cs : List String) (keep : List Bool) (forced : List Nat) : List Score :=
  (List.range cs.length).map fun i =>
    if keep.getD i false then
      (if forced.contains i then Score.posInf else Score.negInf)
    else Score.negInf

/-- Positional indices at which the candidate equals the value itself. -/
def identityIdx (cs : List String) (v : String) : List Nat :=
  (List.range cs.length).filter fun i => decide (cs.getD i dS = v)

/-- Whether a value would require the disabled score function to be invoked:
no override, no identity candidate, no short-circuit hit, and at least one
candidate surviving the filters (mapping primer, Override-only mapping). -/
def needsScoring (cfg : MapperConfig) (rof : Option UserOverrideFn)
    (cs : List String) (ctx : Context) (v : String) : Bool :=
  (overrideChoice rof cfg.overrides v cs ctx).isNone &&
  !(cs.contains v) &&
  (heurForced cfg.heuristics v cs ctx).isNone &&
  (cs.map (passes cfg.filters v cs ctx)).any id

namespace Mapper

/-- Modelled from the spec: one row of `Mapper.compute_scores` (spec
section 4.2). Override phase first (runtime over context-scoped over global
static overrides), then filters, then base scoring with heuristic
augmentation; in override-only mode (`disabled`) identity mappings and
short-circuits may still resolve a value, otherwise strict mode raises
`ScoringDisabledError` if any cell would need the disabled function. -/
def scoreRow (cfg : MapperConfig) (rof : Option UserOverrideFn)
    (cs : List String) (ctx : Context) (v : String) :
    Except MappingError (List Score) :=
  match overrideChoice rof cfg.overrides v cs ctx with
  | some c => .ok (forcedRow cs c)
  | none =>
    let keep := cs.map (passes cfg.filters v cs ctx)
    match cfg.base with
    | .score f =>
      match runHeuristics f cfg.heuristics v cs ctx (scoreAll f v cs ctx) with
      | .inl forced => .ok (assembleForced cs keep forced)
      | .inr accs => .ok (assembleScored cs keep accs)
    | .disabled =>
      if cs.contains v then .ok (assembleForced cs keep (identityIdx cs v))
      else
        match heurForced cfg.heuristics v cs ctx with
        | some forced => .ok (assembleForced cs keep forced)
        | none =>
          if keep.any id then .error .scoringDisabled
          else .ok (cs.map fun _ => Score.negInf)

/-- Effectful map over a list in the `Except` monad, first error wins. -/
def mapME {α β : Type} (f : α → Except MappingError β) :
    List α → Except MappingError (List β)
  | [] => .ok []
  | a :: t =>
    match f a with
    | .error e => .error e
    | .ok b =>
      match mapME f t with
      | .error e => .error e
      | .ok bs => .ok (b :: bs)

/-- Modelled from the spec: `Mapper.compute_scores` — the full score matrix,
one row per value in value order (spec section 4.2). -/
def computeScores (cfg : MapperConfig) (rof : Option UserOverrideFn)
    (values cs : List String) (ctx : Context) :
    Except MappingError (List (List Score)) :=
  mapME (scoreRow cfg rof cs ctx) values

/-- Whether a committed match consumes the candidate for later values
(exclusivity-bearing cardinalities, spec section 4.3). -/
def consumes : Cardinality → Bool
  | .OneToOne => true
  | .OneToMany => true
  | _ => false

/-- Modelled from the spec: matching step for one value — `ManyToMany`
keeps every matchable cell; the single-choice cardinalities pick the best
still-available candidate, raise on ambiguity, and consume the chosen
candidate when exclusivity applies (spec section 4.3). -/
def stepRow (card : Cardinality) (minScore : ℚ) (row : List Score)
    (avail : List Bool) : Except MappingError (List Nat × List Bool) :=
  match card with
  | .ManyToMany => .ok (matchableIdx row avail minScore, avail)
  | _ =>
    match selectBest row avail minScore with
    | .ambiguous => .error .ambiguousScore
    | .unmatched => .ok ([], avail)
    | .chosen i => .ok ([i], if consumes card then avail.set i false else avail)

/-- Modelled from the spec: the Matcher proper — values processed in the
order given, availability threaded through, no backtracking
(spec section 4.3, Resolution order). -/
def matchValues (card : Cardinality) (minScore : ℚ) :
    List (List Score) → List Bool → Except MappingError (List (List Nat))
  | [], _ => .ok []
  | row :: rest, avail =>
    match stepRow card minScore row avail with
    | .error e => .error e
    | .ok sa =>
      match matchValues card minScore rest sa.2 with
      | .error e => .error e
      | .ok rst => .ok (sa.1 :: rst)

/-- Availability state of the Matcher after processing a prefix of rows. -/
def availAfter (card : Cardinality) (minScore : ℚ) :
    List (List Score) → List Bool → Except MappingError (List Bool)
  | [], avail => .ok avail
  | row :: rest, avail =>
    match stepRow card minScore row avail with
    | .error e => .error e
    | .ok sa => availAfter card minScore rest sa.2

/-- Modelled from the spec: `Mapper.to_directional_mapping` — the Matcher
run on a precomputed matrix with all candidates initially available
(spec section 4.4). -/
def toDirectionalMapping (cfg : MapperConfig) (cs : List String)
    (m : List (List Score)) : Except MappingError (List (List Nat)) :=
  matchValues cfg.cardinality cfg.minScore m (List.replicate cs.length true)

/-- Result of a resolution call: matched pairs in value order, the ordered
unmatched values, and whether a diagnostic was emitted (spec section 3,
Assignment; section 4.4). -/
structure MapResult where
  matched : List (String × String)
  unmatched : List String
  warned : Bool
deriving DecidableEq

/-- Matched (value, candidate) pairs, in value order. -/
def assemblePairs (values cs : List String) (sels : List (List Nat)) :
    List (String × String) :=
  (values.zip sels).flatMap fun p => p.2.map fun i => (p.1, cs.getD i dS)

/-- Values left without any selected candidate, in value order. -/
def unmatchedOf (values : List String) (sels : List (List Nat)) : List String :=
  (values.zip sels).filterMap fun p => if p.2.isEmpty then some p.1 else none

/-- Modelled from the spec: `Mapper.apply` — compute scores, run the
Matcher, then apply the `on_unmapped` policy: `raise` fails when any value
is unmatched, `warn` emits a diagnostic and returns the partial assignment,
`ignore` returns it silently (spec section 4.4). -/
def apply (cfg : MapperConfig) (rof : Option UserOverrideFn)
    (values cs : List String) (ctx : Context) : Except MappingError MapResult :=
  match computeScores cfg rof values cs ctx with
  | .error e => .error e
  | .ok m =>
    match toDirectionalMapping cfg cs m with
    | .error e => .error e
    | .ok sels =>
      let um := unmatchedOf values sels
      match cfg.onUnmapped with
      | .raiseError =>
        if um.isEmpty then .ok ⟨assemblePairs values cs sels, um, false⟩
        else .error (.unmappedValues um)
      | .warn => .ok ⟨assemblePairs values cs sels, um, !um.isEmpty⟩
      | .ignore => .ok ⟨assemblePairs values cs sels, um, false⟩

end Mapper

instance exceptDecEq {ε α : Type} [DecidableEq ε] [DecidableEq α] :
    DecidableEq (Except ε α) := fun a b =>
  match a, b with
  | .error e, .error e' =>
    if h : e = e' then .isTrue (by rw [h])
    else .isFalse fun hc => h (by cases hc; rfl)
  | .ok x, .ok y =>
    if h : x = y then .isTrue (by rw [h])
    else .isFalse fun hc => h (by cases hc; rfl)
  | .error _, .ok _ => .isFalse fun hc => Except.noConfusion hc
  | .ok _, .error _ => .isFalse fun hc => Except.noConfusion hc

/-! Concrete values, candidates and configurations used by the worked
examples of the documentation and by the witnesses below. -/

def v0 : String := "v0"

def v1 : String := "v1"

def c0 : String := "c0"

def c1 : String := "c1"

def dog : String := "dog"

def cat : String := "cat"

def s4 : String := "4"

def s0 : String := "0"

/-- Empty override table. -/
def noOverrides : OverrideTable := ⟨[], []⟩

/-- Score function of the conflict-resolution doctest of the mapping
primer: value `v1` scores `[1, 0]` against `[c0, c1]`, every other value
scores `[1, 1]`. -/
def scoreC2 : ScoreFn := fun v c _ =>
  if v = v1 then (if c = c0 then 1 else 0) else 1

/-- Mapper of the conflict-resolution doctest: cardinality 1:1, doctest
score function, default threshold 0.9. -/
def cfgC2 : MapperConfig :=
  ⟨noOverrides, [], [], .score scoreC2, mkRat 9 10, .OneToOne, .ignore⟩

/-- Tie-free variant of the doctest score function: `v0` scores `[1, 1/2]`
instead of `[1, 1]`. -/
def scoreC2b : ScoreFn := fun v c _ =>
  if v = v1 then (if c = c0 then 1 else 0) else (if c = c0 then 1 else mkRat 1 2)

/-- Mapper of the tie-free doctest variant. -/
def cfgC2b : MapperConfig :=
  ⟨noOverrides, [], [], .score scoreC2b, mkRat 9 10, .OneToOne, .ignore⟩

/-- Context name used by the override-precedence witness. -/
def ctxA : String := "ctxA"

/-- Override table with a global entry `v0 -> c0` shadowed by a
context-scoped entry `v0 -> c1` for context `ctxA`. -/
def overridesC3 : OverrideTable := ⟨[(v0, c0)], [(ctxA, [(v0, c1)])]⟩

/-- Mapper carrying the layered override table. -/
def cfgC3 : MapperConfig :=
  ⟨overridesC3, [], [], .score scoreC2, mkRat 9 10, .OneToOne, .ignore⟩

/-- Score function of the dog/cat scenario: candidate `4` scores 1,
candidate `0` scores 19/20 (above the 0.9 threshold). -/
def scoreC4 : ScoreFn := fun _ c _ => if c = s4 then 1 else mkRat 19 20

/-- Override table of the dog/cat scenario: `dog -> 4`. -/
def overridesC4 : OverrideTable := ⟨[(dog, s4)], []⟩

/-- Mapper of the dog/cat scenario. -/
def cfgC4 : MapperConfig :=
  ⟨overridesC4, [], [], .score scoreC4, mkRat 9 10, .OneToOne, .ignore⟩

/-- Value scored low by the base function, used by the best-of witness. -/
def va : String := "va"

/-- Alias target scored high by the base function. -/
def vb : String := "vb"

/-- Base score function of the best-of witness: 2 for `vb`, 1/2 otherwise. -/
def scoreC5 : ScoreFn := fun v _ _ => if v = vb then 2 else mkRat 1 2

/-- Alias heuristic rewriting every value to `vb`. -/
def aliasC5 : AliasFn := fun _ cs _ => (vb, cs)

/-- Mapper with one alias heuristic over `scoreC5`. -/
def cfgC5 : MapperConfig :=
  ⟨noOverrides, [], [.aliasing aliasC5], .score scoreC5, mkRat 9 10, .OneToOne, .ignore⟩

/-- Filter keeping only candidate `c0`. -/
def filterC6 : FilterFn := fun _ _ _ => [c0]

/-- Mapper with the `c0`-only filter. -/
def cfgC6 : MapperConfig :=
  ⟨noOverrides, [filterC6], [], .score scoreC2, mkRat 9 10, .OneToOne, .ignore⟩

/-- Raise-on-unmapped variant of the tie-free doctest Mapper. -/
def cfgC8r : MapperConfig :=
  ⟨noOverrides, [], [], .score scoreC2b, mkRat 9 10, .OneToOne, .raiseError⟩

/-- Warn-on-unmapped variant of the tie-free doctest Mapper. -/
def cfgC8w : MapperConfig :=
  ⟨noOverrides, [], [], .score scoreC2b, mkRat 9 10, .OneToOne, .warn⟩

/-- Override-only Mapper: the explicit disabled score function and no
overrides, filters or heuristics. -/
def cfgC9 : MapperConfig :=
  ⟨noOverrides, [], [], .disabled, mkRat 9 10, .OneToOne, .ignore⟩

/-- Override-only Mapper with a dummy override `c0 -> c1` suppressing the
identity mapping of `c0`. -/
def cfgC10o : MapperConfig :=
  ⟨⟨[(c0, c1)], []⟩, [], [], .disabled, mkRat 9 10, .OneToOne, .ignore⟩




theorem maxQ_mem : ∀ (l : List ℚ) (m : ℚ), maxQ l = some m → m ∈ l := by
  intro l
  induction l with
  | nil => intro m h; simp [maxQ] at h
  | cons a t ih =>
    intro m h
    simp only [maxQ] at h
    cases ht : maxQ t with
    | none => rw [ht] at h; simp at h; simp [h]
    | some mt =>
      rw [ht] at h
      simp at h
      rcases max_choice a mt with hc | hc
      · rw [hc] at h; subst h; exact List.mem_cons_self a t
      · rw [hc] at h; subst h; exact List.mem_cons_of_mem a (ih mt ht)

theorem maxQ_eq_of_mem_of_bound (l : List ℚ) (q : ℚ) (hq : q ∈ l)
    (hb : ∀ x ∈ l, x ≤ q) : maxQ l = some q := by
  induction l with
  | nil => simp at hq
  | cons a t ih =>
    simp only [maxQ]
    rcases List.mem_cons.mp hq with h | h
    · cases ht : maxQ t with
      | none => simp [h]
      | some mt =>
        have hmt : mt ∈ t := maxQ_mem t mt ht
        have : mt ≤ q := hb mt (List.mem_cons_of_mem a hmt)
        simp [h, max_eq_left (h ▸ this)]
    · have ht : maxQ t = some q := ih h (fun x hx => hb x (List.mem_cons_of_mem a hx))
      have ha : a ≤ q := hb a (List.mem_cons_self a t)
      simp [ht, max_eq_right ha]

theorem getD_map_gen {α β : Type} (f : α → β) (dA : α) :
    ∀ (l : List α) (i : Nat), i < l.length →
      ∀ (dB : β), (l.map f).getD i dB = f (l.getD i dA) := by
  intro l
  induction l with
  | nil => intro i hi; simp at hi
  | cons a t ih =>
    intro i hi d
    cases i with
    | zero => simp [List.getD]
    | succ n =>
      simp only [List.length_cons, Nat.succ_lt_succ_iff] at hi
      simpa [List.getD] using ih n hi d

theorem getD_of_length_le {α : Type} (l : List α) (i : Nat) (d : α)
    (h : l.length ≤ i) : l.getD i d = d := by
  induction l generalizing i with
  | nil => simp [List.getD]
  | cons a t ih =>
    cases i with
    | zero => simp at h
    | succ n =>
      simp only [List.length_cons, Nat.succ_le_succ_iff] at h
      simpa [List.getD] using ih n h

theorem rangeMap_getD (g : Nat → Score) (n j : Nat) (d : Score) (h : j < n) :
    ((List.range n).map g).getD j d = g j := by
  rw [List.getD_eq_getElem?_getD, List.getElem?_map, List.getElem?_range h]
  rfl

theorem two_mem_two_le_length {α : Type} {l : List α} {i j : α}
    (hi : i ∈ l) (hj : j ∈ l) (hne : i ≠ j) : 2 ≤ l.length := by
  cases l with
  | nil => simp at hi
  | cons a t =>
    cases t with
    | nil =>
      simp at hi hj
      exact absurd (hi.trans hj.symm) hne
    | cons b u => simp only [List.length_cons]; omega

theorem getD_set_self {α : Type} :
    ∀ (l : List α) (j : Nat) (x d : α), j < l.length → (l.set j x).getD j d = x := by
  intro l
  induction l with
  | nil => intro j x d h; simp at h
  | cons a t ih =>
    intro j x d h
    cases j with
    | zero => simp [List.getD]
    | succ n =>
      simp only [List.length_cons, Nat.succ_lt_succ_iff] at h
      simpa [List.set, List.getD] using ih n x d h

theorem getD_set_ne {α : Type} :
    ∀ (l : List α) (i j : Nat) (x d : α), i ≠ j →
      (l.set j x).getD i d = l.getD i d := by
  intro l
  induction l with
  | nil => intro i j x d _; simp
  | cons a t ih =>
    intro i j x d hij
    cases j with
    | zero =>
      cases i with
      | zero => exact absurd rfl hij
      | succ n => simp [List.set, List.getD]
    | succ m =>
      cases i with
      | zero => simp [List.set, List.getD]
      | succ n =>
        simp only [List.set, List.getD_cons_succ]
        exact ih n m x d (fun he => hij (by rw [he]))

theorem set_of_length_le {α : Type} :
    ∀ (l : List α) (j : Nat) (x : α), l.length ≤ j → l.set j x = l := by
  intro l
  induction l with
  | nil => intro j x _; rfl
  | cons a t ih =>
    intro j x h
    cases j with
    | zero => simp at h
    | succ n =>
      simp only [List.length_cons, Nat.succ_le_succ_iff] at h
      simp [List.set, ih n x h]

theorem filter_congr_mem {α : Type} (p q : α → Bool) :
    ∀ (l : List α), (∀ a ∈ l, p a = q a) → l.filter p = l.filter q := by
  intro l
  induction l with
  | nil => intro _; rfl
  | cons a t ih =>
    intro h
    simp only [List.filter_cons, h a (List.mem_cons_self a t),
      ih fun x hx => h x (List.mem_cons_of_mem a hx)]

theorem filterMap_congr_mem {α β : Type} (f g : α → Option β) :
    ∀ (l : List α), (∀ a ∈ l, f a = g a) → l.filterMap f = l.filterMap g := by
  intro l
  induction l with
  | nil => intro _; rfl
  | cons a t ih =>
    intro h
    simp only [List.filterMap_cons, h a (List.mem_cons_self a t),
      ih fun x hx => h x (List.mem_cons_of_mem a hx)]

theorem selectBest_below_threshold_invariant (row : List Score) (avail : List Bool)
    (minScore q : ℚ) (j : Nat) (hq : q < minScore) :
    selectBest (row.set j (Score.fin q)) avail minScore =
      selectBest (row.set j Score.negInf) avail minScore := by
  have hmq : matchable (Score.fin q) minScore = false := by
    unfold matchable
    exact decide_eq_false (not_le.mpr hq)
  by_cases hjl : j < row.length
  case neg =>
    rw [set_of_length_le row j _ (by omega), set_of_length_le row j _ (by omega)]
  case pos =>
  have hoff : ∀ i, i ≠ j →
      (row.set j (Score.fin q)).getD i Score.negInf =
        (row.set j Score.negInf).getD i Score.negInf := by
    intro i hij
    rw [getD_set_ne row i j _ _ hij, getD_set_ne row i j _ _ hij]
  have hmIdx : matchableIdx (row.set j (Score.fin q)) avail minScore =
      matchableIdx (row.set j Score.negInf) avail minScore := by
    simp only [matchableIdx, List.length_set]
    apply filter_congr_mem
    intro a _
    by_cases haj : a = j
    · subst haj
      rw [getD_set_self row a _ _ hjl, getD_set_self row a _ _ hjl, hmq]
      simp [matchable]
    · rw [hoff a haj]
  have hj2 : j ∉ matchableIdx (row.set j Score.negInf) avail minScore := by
    intro hmem
    have h2 := (List.mem_filter.mp hmem).2
    rw [getD_set_self row j _ _ hjl] at h2
    simp [matchable] at h2
  have hoffm : ∀ a ∈ matchableIdx (row.set j Score.negInf) avail minScore,
      (row.set j (Score.fin q)).getD a Score.negInf =
        (row.set j Score.negInf).getD a Score.negInf := by
    intro a ha
    exact hoff a (fun he => hj2 (he ▸ ha))
  have hinfs : List.filter
      (fun i => ((row.set j (Score.fin q)).getD i Score.negInf).isInf)
      (matchableIdx (row.set j Score.negInf) avail minScore) =
    List.filter (fun i => ((row.set j Score.negInf).getD i Score.negInf).isInf)
      (matchableIdx (row.set j Score.negInf) avail minScore) :=
    filter_congr_mem _ _ _ (fun a ha => by simp only [hoffm a ha])
  have hfin : finScoresAt (row.set j (Score.fin q))
      (matchableIdx (row.set j Score.negInf) avail minScore) =
    finScoresAt (row.set j Score.negInf)
      (matchableIdx (row.set j Score.negInf) avail minScore) := by
    simp only [finScoresAt]
    exact filterMap_congr_mem _ _ _ (fun a ha => by simp only [hoffm a ha])
  simp only [selectBest]
  rw [hmIdx, hinfs, hfin]
  cases hmax : maxQ (finScoresAt (row.set j Score.negInf)
      (matchableIdx (row.set j Score.negInf) avail minScore)) with
  | none => rfl
  | some qv =>
    have hties : List.filter
        (fun i => decide ((row.set j (Score.fin q)).getD i Score.negInf = Score.fin qv))
        (matchableIdx (row.set j Score.negInf) avail minScore) =
      List.filter
        (fun i => decide ((row.set j Score.negInf).getD i Score.negInf = Score.fin qv))
        (matchableIdx (row.set j Score.negInf) avail minScore) :=
      filter_congr_mem _ _ _ (fun a ha => by simp only [hoffm a ha])
    simp only []
    rw [hties]

theorem selectBest_ambiguous_of_tie (row : List Score) (avail : List Bool)
    (minScore : ℚ)
    (h : finiteTieAt row avail minScore ∨ infTieAt row avail minScore) :
    selectBest row avail minScore = Selection.ambiguous := by
  have hgem : ∀ (k : Nat) (d : Score), row[k]?.getD d = row.getD k d := by
    intro k d
    rw [List.getD_eq_getElem?_getD]
  rcases h with hfin | hinf
  · obtain ⟨i, j, q, hne, hi, hj, hqi, hqj, hbest, hnoinf⟩ := hfin
    have hinfs : (matchableIdx row avail minScore).filter
        (fun i => (row[i]?.getD Score.negInf).isInf) = [] := by
      rw [List.filter_eq_nil_iff]
      intro k hk
      have h' := hnoinf k hk
      rw [← hgem] at h'
      simp [h']
    have hmax : maxQ (finScoresAt row (matchableIdx row avail minScore)) = some q := by
      apply maxQ_eq_of_mem_of_bound
      · refine List.mem_filterMap.mpr ⟨i, hi, ?_⟩
        rw [hqi]
      · intro x hx
        obtain ⟨k, hk, hkx⟩ := List.mem_filterMap.mp hx
        cases hrk : row.getD k Score.negInf with
        | negInf => rw [hrk] at hkx; simp at hkx
        | posInf => rw [hrk] at hkx; simp at hkx
        | fin qk =>
          rw [hrk] at hkx
          simp at hkx
          exact hkx ▸ hbest k hk qk hrk
    have hties : 2 ≤ ((matchableIdx row avail minScore).filter
        (fun i => decide (row[i]?.getD Score.negInf = Score.fin q))).length := by
      apply two_mem_two_le_length (i := i) (j := j) _ _ hne
      · refine List.mem_filter.mpr ⟨hi, ?_⟩
        have h' := hqi
        rw [← hgem] at h'
        simp [h']
      · refine List.mem_filter.mpr ⟨hj, ?_⟩
        have h' := hqj
        rw [← hgem] at h'
        simp [h']
    simp [selectBest, hinfs, hmax, hties]
  · obtain ⟨i, j, hne, hi, hj, hqi, hqj⟩ := hinf
    have hinfs : 2 ≤ ((matchableIdx row avail minScore).filter
        (fun i => (row[i]?.getD Score.negInf).isInf)).length := by
      apply two_mem_two_le_length (i := i) (j := j) _ _ hne
      · refine List.mem_filter.mpr ⟨hi, ?_⟩
        have h' := hqi
        rw [← hgem] at h'
        simp [h', Score.isInf]
      · refine List.mem_filter.mpr ⟨hj, ?_⟩
        have h' := hqj
        rw [← hgem] at h'
        simp [h', Score.isInf]
    simp [selectBest, hinfs]

namespace Mapper

theorem mapME_length {α β : Type} (f : α → Except MappingError β) :
    ∀ (l : List α) (m : List β), mapME f l = .ok m → m.length = l.length := by
  intro l
  induction l with
  | nil => intro m h; simp only [mapME] at h; cases h; rfl
  | cons a t ih =>
    intro m h
    simp only [mapME] at h
    cases hfa : f a with
    | error e => rw [hfa] at h; cases h
    | ok b =>
      rw [hfa] at h
      cases hmt : mapME f t with
      | error e => rw [hmt] at h; cases h
      | ok bs =>
        rw [hmt] at h
        cases h
        simp [ih bs hmt]

theorem mapME_ok_getD {α β : Type} (f : α → Except MappingError β)
    (dA : α) (dB : β) :
    ∀ (l : List α) (m : List β), mapME f l = .ok m →
      ∀ i, i < l.length → f (l.getD i dA) = .ok (m.getD i dB) := by
  intro l
  induction l with
  | nil => intro m _ i hi; simp at hi
  | cons a t ih =>
    intro m h i hi
    simp only [mapME] at h
    cases hfa : f a with
    | error e => rw [hfa] at h; cases h
    | ok b =>
      rw [hfa] at h
      cases hmt : mapME f t with
      | error e => rw [hmt] at h; cases h
      | ok bs =>
        rw [hmt] at h
        cases h
        cases i with
        | zero => simpa [List.getD] using hfa
        | succ n =>
          simp only [List.length_cons, Nat.succ_lt_succ_iff] at hi
          simpa [List.getD] using ih bs hmt n hi

theorem mapME_ok_of_forall {α β : Type} (f : α → Except MappingError β) :
    ∀ (l : List α), (∀ a ∈ l, ∃ b, f a = .ok b) → ∃ m, mapME f l = .ok m := by
  intro l
  induction l with
  | nil => intro _; exact ⟨[], rfl⟩
  | cons a t ih =>
    intro h
    obtain ⟨b, hb⟩ := h a (List.mem_cons_self a t)
    obtain ⟨bs, hbs⟩ := ih fun x hx => h x (List.mem_cons_of_mem a hx)
    exact ⟨b :: bs, by simp only [mapME, hb, hbs]⟩

theorem mapME_error_of_mem {α β : Type} (f : α → Except MappingError β)
    (e : MappingError) (hall : ∀ (a : α) (e' : MappingError), f a = .error e' → e' = e) :
    ∀ (l : List α) (a : α), a ∈ l → f a = .error e → mapME f l = .error e := by
  intro l
  induction l with
  | nil => intro a ha; simp at ha
  | cons x t ih =>
    intro a ha hae
    rcases List.mem_cons.mp ha with h | h
    · subst h
      simp only [mapME, hae]
    · cases hfx : f x with
      | error e' =>
        have := hall x e' hfx
        subst this
        simp only [mapME, hfx]
      | ok b =>
        simp only [mapME, hfx, ih a h hae]

theorem matchValues_ok_of_availAfter (card : Cardinality) (minScore : ℚ) :
    ∀ (pre : List (List Score)) (avail a : List Bool),
      availAfter card minScore pre avail = .ok a →
      ∃ sl, matchValues card minScore pre avail = .ok sl := by
  intro pre
  induction pre with
  | nil => intro avail a _; exact ⟨[], rfl⟩
  | cons row t ih =>
    intro avail a h
    simp only [availAfter] at h
    cases hs : stepRow card minScore row avail with
    | error e => rw [hs] at h; cases h
    | ok sa =>
      rw [hs] at h
      obtain ⟨sl, hsl⟩ := ih sa.2 a h
      exact ⟨sa.1 :: sl, by simp only [matchValues, hs, hsl]⟩

theorem matchValues_append_run (card : Cardinality) (minScore : ℚ) :
    ∀ (pre rows : List (List Score)) (avail a : List Bool),
      availAfter card minScore pre avail = .ok a →
      matchValues card minScore (pre ++ rows) avail =
        match matchValues card minScore pre avail, matchValues card minScore rows a with
        | .error e, _ => .error e
        | .ok _, .error e => .error e
        | .ok sl, .ok sl' => .ok (sl ++ sl') := by
  intro pre
  induction pre with
  | nil =>
    intro rows avail a h
    simp only [availAfter] at h
    cases h
    simp only [List.nil_append, matchValues]
    cases matchValues card minScore rows avail <;> rfl
  | cons row t ih =>
    intro rows avail a h
    simp only [availAfter] at h
    cases hs : stepRow card minScore row avail with
    | error e => rw [hs] at h; cases h
    | ok sa =>
      rw [hs] at h
      simp only [List.cons_append, matchValues, hs, List.append_eq]
      rw [ih rows sa.2 a h]
      cases matchValues card minScore t sa.2 with
      | error e => rfl
      | ok sl =>
        cases matchValues card minScore rows a <;> rfl

theorem matchValues_error_of_tie (card : Cardinality) (minScore : ℚ)
    (hcard : card ≠ .ManyToMany)
    (pre : List (List Score)) (row : List Score) (post : List (List Score))
    (avail a : List Bool)
    (hpre : availAfter card minScore pre avail = .ok a)
    (htie : finiteTieAt row a minScore ∨ infTieAt row a minScore) :
    matchValues card minScore (pre ++ row :: post) avail = .error .ambiguousScore := by
  have hsel : selectBest row a minScore = Selection.ambiguous :=
    selectBest_ambiguous_of_tie row a minScore htie
  have hstep : stepRow card minScore row a = .error .ambiguousScore := by
    cases card with
    | ManyToMany => exact absurd rfl hcard
    | OneToOne => simp [stepRow, hsel]
    | OneToMany => simp [stepRow, hsel]
    | ManyToOne => simp [stepRow, hsel]
  rw [matchValues_append_run card minScore pre (row :: post) avail a hpre]
  have hrows : matchValues card minScore (row :: post) a = .error .ambiguousScore := by
    simp only [matchValues, hstep]
  rw [hrows]
  obtain ⟨sl2, hsl2⟩ := matchValues_ok_of_availAfter card minScore pre avail a hpre
  rw [hsl2]

theorem zipMax_getD_le (a b : List ℚ) (i : Nat) :
    a.getD i 0 ≤ (zipMax a b).getD i 0 := by
  induction a generalizing b i with
  | nil => simp [zipMax, List.getD]
  | cons x xs ih =>
    cases b with
    | nil => simp [zipMax]
    | cons y ys =>
      cases i with
      | zero => simp [zipMax, List.getD, le_max_left]
      | succ n => simpa [zipMax, List.getD] using ih ys n

theorem runHeuristics_inr_ge (f : ScoreFn) :
    ∀ (hs : List Heuristic) (v : String) (cs : List String) (ctx : Context)
      (acc acc' : List ℚ),
      runHeuristics f hs v cs ctx acc = .inr acc' →
      ∀ i, acc.getD i 0 ≤ acc'.getD i 0 := by
  intro hs
  induction hs with
  | nil =>
    intro v cs ctx acc acc' h i
    simp only [runHeuristics] at h
    cases h
    exact le_refl _
  | cons hd rest ih =>
    intro v cs ctx acc acc' h i
    cases hd with
    | shortCircuit g =>
      simp only [runHeuristics] at h
      by_cases hk : (g v cs ctx).isEmpty
      · rw [if_pos hk] at h
        exact ih v cs ctx acc acc' h i
      · rw [if_neg hk] at h
        cases h
    | aliasing g =>
      simp only [runHeuristics] at h
      calc acc.getD i 0
          ≤ (zipMax acc (scoreAll f (g v cs ctx).1 (g v cs ctx).2 ctx)).getD i 0 :=
            zipMax_getD_le _ _ i
        _ ≤ acc'.getD i 0 := ih _ _ ctx _ acc' h i

theorem scoreRow_error_eq (cfg : MapperConfig) (rof : Option UserOverrideFn)
    (cs : List String) (ctx : Context) (v : String) (e : MappingError)
    (h : scoreRow cfg rof cs ctx v = .error e) : e = .scoringDisabled := by
  simp only [scoreRow] at h
  split at h
  · cases h
  · split at h
    · split at h
      · cases h
      · cases h
    · split at h
      · cases h
      · split at h
        · cases h
        · split at h
          · injection h with h2
            exact h2.symm
          · cases h

theorem forcedRow_length (cs : List String) (c : String) :
    (forcedRow cs c).length = cs.length := by
  simp [forcedRow]

theorem forcedRow_getD (cs : List String) (c : String) (j : Nat)
    (hj : j < cs.length) :
    (forcedRow cs c).getD j Score.negInf =
      (if cs.getD j dS = c then Score.posInf else Score.negInf) := by
  simp only [forcedRow]
  rw [getD_map_gen (fun cand => if cand = c then Score.posInf else Score.negInf) dS cs j hj]

theorem assembleScored_length (cs : List String) (keep : List Bool) (accs : List ℚ) :
    (assembleScored cs keep accs).length = cs.length := by
  simp [assembleScored]

theorem assembleScored_getD (cs : List String) (keep : List Bool) (accs : List ℚ)
    (j : Nat) (hj : j < cs.length) :
    (assembleScored cs keep accs).getD j Score.negInf =
      (if keep.getD j false then Score.fin (accs.getD j 0) else Score.negInf) := by
  simp only [assembleScored]
  rw [rangeMap_getD _ cs.length j Score.negInf hj]

theorem assembleForced_length (cs : List String) (keep : List Bool) (forced : List Nat) :
    (assembleForced cs keep forced).length = cs.length := by
  simp [assembleForced]

theorem assembleForced_getD (cs : List String) (keep : List Bool) (forced : List Nat)
    (j : Nat) (hj : j < cs.length) :
    (assembleForced cs keep forced).getD j Score.negInf =
      (if keep.getD j false then
        (if forced.contains j then Score.posInf else Score.negInf)
      else Score.negInf) := by
  simp only [assembleForced]
  rw [rangeMap_getD _ cs.length j Score.negInf hj]

theorem scoreRow_override (cfg : MapperConfig) (rof : Option UserOverrideFn)
    (cs : List String) (ctx : Context) (v : String) (c : String)
    (hc : overrideChoice rof cfg.overrides v cs ctx = some c) :
    scoreRow cfg rof cs ctx v = .ok (forcedRow cs c) := by
  simp only [scoreRow, hc]

theorem scoreRow_length (cfg : MapperConfig) (rof : Option UserOverrideFn)
    (cs : List String) (ctx : Context) (v : String) (row : List Score)
    (h : scoreRow cfg rof cs ctx v = .ok row) : row.length = cs.length := by
  simp only [scoreRow] at h
  split at h
  · cases h
    simp [forcedRow]
  · split at h
    · split at h
      · cases h
        simp [assembleForced]
      · cases h
        simp [assembleScored]
    · split at h
      · cases h
        simp [assembleForced]
      · split at h
        · cases h
          simp [assembleForced]
        · split at h
          · cases h
          · cases h
            simp

end Mapper

/-- C1: for a resolution call with cardinality OneToOne, when the Matcher
reaches some value whose still-available candidates contain a genuine tie —
two or more sharing the strictly-best finite score with no forced (+inf)
candidate breaking it, or two conflicting forced (+inf) candidates — then
`Mapper.apply` raises `AmbiguousScoreError` instead of picking one of the
tied candidates. -/
theorem c1_one_to_one_tie_raises_ambiguous
    (cfg : MapperConfig) (rof : Option UserOverrideFn)
    (values cs : List String) (ctx : Context)
    (m pre post : List (List Score)) (row : List Score) (a : List Bool)
    (hcard : cfg.cardinality = .OneToOne)
    (hm : Mapper.computeScores cfg rof values cs ctx = .ok m)
    (hsplit : m = pre ++ row :: post)
    (hpre : Mapper.availAfter .OneToOne cfg.minScore pre
      (List.replicate cs.length true) = .ok a)
    (htie : finiteTieAt row a cfg.minScore ∨ infTieAt row a cfg.minScore) :
    Mapper.apply cfg rof values cs ctx = .error .ambiguousScore := by
  have hmatch : Mapper.matchValues .OneToOne cfg.minScore m
      (List.replicate cs.length true) = .error .ambiguousScore := by
    rw [hsplit]
    exact Mapper.matchValues_error_of_tie .OneToOne cfg.minScore
      (by intro hx; cases hx) pre row post _ a hpre htie
  simp only [Mapper.apply, hm, Mapper.toDirectionalMapping, hcard, hmatch]

/-- Witness for C1: the doctest configuration at values `[v0]` and
candidates `[c0, c1]` produces the tied row `[1, 1]`, and `apply` raises
the ambiguity error. -/
theorem c1_witness :
    Mapper.apply cfgC2 none [v0] [c0, c1] none = .error .ambiguousScore := by
  have hmi : matchableIdx [Score.fin 1, Score.fin 1] (List.replicate 2 true)
      cfgC2.minScore = [0, 1] := by decide
  refine c1_one_to_one_tie_raises_ambiguous cfgC2 none [v0] [c0, c1] none
    [[Score.fin 1, Score.fin 1]] [] [] [Score.fin 1, Score.fin 1]
    (List.replicate 2 true) rfl (by decide) rfl rfl (Or.inl ?_)
  refine ⟨0, 1, 1, by decide, ?_, ?_, rfl, rfl, ?_, ?_⟩
  · rw [hmi]; decide
  · rw [hmi]; decide
  · intro k hk q' hq'
    rw [hmi] at hk
    have hcell : [Score.fin 1, Score.fin 1].getD k Score.negInf = Score.fin 1 := by
      rcases List.mem_cons.mp hk with h | h
      · subst h; rfl
      · rcases List.mem_cons.mp h with h2 | h2
        · subst h2; rfl
        · simp at h2
    rw [hcell] at hq'
    injection hq' with hq2
    exact le_of_eq hq2.symm
  · intro k hk
    rw [hmi] at hk
    rcases List.mem_cons.mp hk with h | h
    · subst h; rfl
    · rcases List.mem_cons.mp h with h2 | h2
      · subst h2; rfl
      · simp at h2

/-- C2 counterexample: on the doctest input — values `[v0, v1]`, candidates
`[c0, c1]`, cardinality OneToOne, score function `[1, 0]` for `v1` and
`[1, 1]` otherwise — `apply` raises `AmbiguousScoreError` (the row of `v0`
ties at the best finite score 1), so it does not return the assignment
`{v0: c0}` asserted by the claim. -/
theorem c2_counterexample_doctest_ambiguous :
    Mapper.apply cfgC2 none [v0, v1] [c0, c1] none = .error .ambiguousScore ∧
      Mapper.apply cfgC2 none [v0, v1] [c0, c1] none ≠
        .ok ⟨[(v0, c0)], [v1], false⟩ := by
  constructor
  · decide
  · intro hc
    rw [show Mapper.apply cfgC2 none [v0, v1] [c0, c1] none =
      .error .ambiguousScore from by decide] at hc
    cases hc

/-- C2 amended: with the tie removed from the row of `v0` (score function
`[1, 1/2]` for `v0`, `[1, 0]` for `v1`), resolution is order-dependent
exactly as described: `v0` is processed first and claims its highest-scoring
candidate `c0`; the consumed `c0` is never reclaimed for `v1`, whose only
remaining candidate scores 0 below the threshold, so the result is
`{v0: c0}` with `v1` unmatched. -/
theorem c2_order_dependent_greedy_resolution :
    Mapper.computeScores cfgC2b none [v0, v1] [c0, c1] none =
      .ok [[Score.fin 1, Score.fin (mkRat 1 2)], [Score.fin 1, Score.fin 0]] ∧
    Mapper.apply cfgC2b none [v0, v1] [c0, c1] none =
      .ok ⟨[(v0, c0)], [v1], false⟩ := by
  constructor
  · decide
  · decide

/-- C3: whenever a (value, context) pair is resolved by an override, the
row of that value in the matrix produced by `Mapper.compute_scores` is the
forced row — plus infinity exactly at the cells holding the override's
chosen candidate, minus infinity at every other cell — and the chosen
candidate follows the precedence runtime override, then static
context-scoped override, then static global override. -/
theorem c3_override_forced_row_and_precedence
    (cfg : MapperConfig) (rof : Option UserOverrideFn)
    (values cs : List String) (ctx : Context)
    (m : List (List Score)) (i : Nat) (c : String)
    (hm : Mapper.computeScores cfg rof values cs ctx = .ok m)
    (hi : i < values.length)
    (hc : overrideChoice rof cfg.overrides (values.getD i dS) cs ctx = some c) :
    m.getD i [] = forcedRow cs c ∧
    (∀ j, j < cs.length →
      (m.getD i []).getD j Score.negInf =
        (if cs.getD j dS = c then Score.posInf else Score.negInf)) ∧
    (∀ f cc, rof = some f → f (values.getD i dS) cs ctx = some cc → c = cc) ∧
    ((rof.bind fun f => f (values.getD i dS) cs ctx) = none →
      ∀ cc, ctxLookup cfg.overrides (values.getD i dS) ctx = some cc → c = cc) ∧
    ((rof.bind fun f => f (values.getD i dS) cs ctx) = none →
      ctxLookup cfg.overrides (values.getD i dS) ctx = none →
      ∀ cc, cfg.overrides.globalLayer.lookup (values.getD i dS) = some cc → c = cc) := by
  have hrow : Mapper.scoreRow cfg rof cs ctx (values.getD i dS) = .ok (m.getD i []) :=
    Mapper.mapME_ok_getD (Mapper.scoreRow cfg rof cs ctx) dS [] values m hm i hi
  rw [Mapper.scoreRow_override cfg rof cs ctx _ c hc] at hrow
  have hr : m.getD i [] = forcedRow cs c := by
    injection hrow with h2
    exact h2.symm
  refine ⟨hr, ?_, ?_, ?_, ?_⟩
  · intro j hj
    rw [hr]
    exact Mapper.forcedRow_getD cs c j hj
  · intro f cc hrof hf
    rw [overrideChoice, hrof] at hc
    simp only [Option.bind, hf] at hc
    exact (Option.some.inj hc).symm
  · intro hb cc hcl
    rw [overrideChoice, hb] at hc
    simp only [staticLookup, hcl] at hc
    exact (Option.some.inj hc).symm
  · intro hb hcl cc hg
    rw [overrideChoice, hb] at hc
    simp only [staticLookup, hcl] at hc
    rw [hg] at hc
    exact (Option.some.inj hc).symm

/-- Witness for C3: with a runtime override absent, the context-scoped
entry `v0 -> c1` beats the global entry `v0 -> c0`, and the row of `v0` is
the forced row of `c1`. -/
theorem c3_witness :
    overrideChoice none cfgC3.overrides ([v0].getD 0 dS) [c0, c1] (some ctxA) =
      some c1 ∧
    Mapper.computeScores cfgC3 none [v0] [c0, c1] (some ctxA) =
      .ok [[Score.negInf, Score.posInf]] ∧
    [[Score.negInf, Score.posInf]].getD 0 [] = forcedRow [c0, c1] c1 := by
  refine ⟨by decide, by decide, ?_⟩
  exact (c3_override_forced_row_and_precedence cfgC3 none [v0] [c0, c1]
    (some ctxA) [[Score.negInf, Score.posInf]] 0 c1 (by decide) (by decide)
    (by decide)).1

/-- C4 counterexample: in the dog/cat scenario (values `[dog, cat]`,
candidates `[4, 0]`, static override `dog -> 4`, cardinality OneToOne), the
cell (cat, 4) of the computed score matrix holds the finite base score 1,
not minus infinity as the claim asserts — the override only forces the row
of `dog`. -/
theorem c4_counterexample_cat_cell_finite :
    Mapper.computeScores cfgC4 none [dog, cat] [s4, s0] none =
      .ok [[Score.posInf, Score.negInf],
        [Score.fin 1, Score.fin (mkRat 19 20)]] ∧
    ([[Score.posInf, Score.negInf],
      [Score.fin 1, Score.fin (mkRat 19 20)]].getD 1 []).getD 0 Score.negInf =
      Score.fin 1 ∧
    Score.fin 1 ≠ Score.negInf := by
  exact ⟨by decide, by decide, by decide⟩

/-- C4 amended: `dog` is assigned `4` with score plus infinity (and minus
infinity at its other cell); the cell (cat, 4) keeps its finite base score
rather than being forced to minus infinity, but candidate `4` is consumed
by `dog` under OneToOne, so with cat's score for `0` at or above the
threshold the final assignment is `{dog: 4, cat: 0}`. -/
theorem c4_dog_cat_final_assignment :
    Mapper.computeScores cfgC4 none [dog, cat] [s4, s0] none =
      .ok [[Score.posInf, Score.negInf],
        [Score.fin 1, Score.fin (mkRat 19 20)]] ∧
    cfgC4.minScore ≤ mkRat 19 20 ∧
    Mapper.apply cfgC4 none [dog, cat] [s4, s0] none =
      .ok ⟨[(dog, s4), (cat, s0)], [], false⟩ := by
  exact ⟨by decide, by decide, by decide⟩

/-- C5: in scored mode, every finite cell of the matrix produced by
`Mapper.compute_scores` is at least the unmodified base score of that
(value, candidate) pair — the heuristic augmentation takes the per-cell
maximum over the no-heuristics variant and every alias variant so
heuristics can only help, never hurt. -/
theorem c5_heuristic_best_of
    (cfg : MapperConfig) (rof : Option UserOverrideFn)
    (values cs : List String) (ctx : Context)
    (m : List (List Score)) (f : ScoreFn) (i j : Nat) (q : ℚ)
    (hb : cfg.base = .score f)
    (hm : Mapper.computeScores cfg rof values cs ctx = .ok m)
    (hq : (m.getD i []).getD j Score.negInf = Score.fin q) :
    f (values.getD i dS) (cs.getD j dS) ctx ≤ q := by
  have hlenm : m.length = values.length := Mapper.mapME_length _ values m hm
  by_cases hi : i < values.length
  case neg =>
    exfalso
    rw [getD_of_length_le m i [] (by omega)] at hq
    rw [getD_of_length_le [] j Score.negInf (by simp)] at hq
    cases hq
  case pos =>
  have hrow : Mapper.scoreRow cfg rof cs ctx (values.getD i dS) = .ok (m.getD i []) :=
    Mapper.mapME_ok_getD _ dS [] values m hm i hi
  have hrlen : (m.getD i []).length = cs.length :=
    Mapper.scoreRow_length cfg rof cs ctx _ _ hrow
  by_cases hj : j < cs.length
  case neg =>
    exfalso
    rw [getD_of_length_le (m.getD i []) j Score.negInf (by omega)] at hq
    cases hq
  case pos =>
  simp only [Mapper.scoreRow] at hrow
  split at hrow
  case _ c hov =>
    exfalso
    injection hrow with h2
    rw [← h2, Mapper.forcedRow_getD cs c j hj] at hq
    split at hq <;> cases hq
  case _ hov =>
    split at hrow
    case _ f' hbase =>
      have hff : f' = f := by
        rw [hb] at hbase
        injection hbase with h2
        exact h2.symm
      subst hff
      split at hrow
      case _ forced hr =>
        exfalso
        injection hrow with h2
        rw [← h2, Mapper.assembleForced_getD cs _ forced j hj] at hq
        split at hq
        · split at hq <;> cases hq
        · cases hq
      case _ accs hr =>
        injection hrow with h2
        rw [← h2, Mapper.assembleScored_getD cs _ accs j hj] at hq
        split at hq
        case _ hkeep =>
          injection hq with hq2
          have hge := Mapper.runHeuristics_inr_ge f' cfg.heuristics
            (values.getD i dS) cs ctx (scoreAll f' (values.getD i dS) cs ctx)
            accs hr j
          have hsc : (scoreAll f' (values.getD i dS) cs ctx).getD j 0 =
              f' (values.getD i dS) (cs.getD j dS) ctx := by
            simp only [scoreAll]
            exact getD_map_gen (fun c => f' (values.getD i dS) c ctx) dS cs j hj 0
          rw [hsc, hq2] at hge
          exact hge
        case _ => cases hq
    case _ hbase =>
      exfalso
      rw [hb] at hbase
      cases hbase

/-- Witness for C5: the alias heuristic lifts the cell (va, c0) from its
base score 1/2 to 2, and the base score is below the final cell value. -/
theorem c5_witness :
    Mapper.computeScores cfgC5 none [va] [c0] none = .ok [[Score.fin 2]] ∧
    scoreC5 ([va].getD 0 dS) ([c0].getD 0 dS) none ≤ 2 :=
  ⟨by decide,
    c5_heuristic_best_of cfgC5 none [va] [c0] none [[Score.fin 2]] scoreC5 0 0 2
      rfl (by decide) (by decide)⟩

/-- C6: cells fixed by the override/filter phase keep exactly their
sentinel in the final matrix of `Mapper.compute_scores` — an override-forced
row stays the forced row (+inf at the chosen candidate, -inf elsewhere), and
a cell excluded by any filter stays minus infinity regardless of the base
score function and heuristics; filters can only produce minus infinity,
never plus infinity or a finite score. -/
theorem c6_fixed_cells_never_altered
    (cfg : MapperConfig) (rof : Option UserOverrideFn)
    (values cs : List String) (ctx : Context)
    (m : List (List Score)) (i j : Nat)
    (hm : Mapper.computeScores cfg rof values cs ctx = .ok m)
    (hi : i < values.length) (hj : j < cs.length) :
    (∀ c, overrideChoice rof cfg.overrides (values.getD i dS) cs ctx = some c →
      (m.getD i []).getD j Score.negInf =
        (if cs.getD j dS = c then Score.posInf else Score.negInf)) ∧
    (overrideChoice rof cfg.overrides (values.getD i dS) cs ctx = none →
      passes cfg.filters (values.getD i dS) cs ctx (cs.getD j dS) = false →
      (m.getD i []).getD j Score.negInf = Score.negInf) := by
  have hrow : Mapper.scoreRow cfg rof cs ctx (values.getD i dS) = .ok (m.getD i []) :=
    Mapper.mapME_ok_getD _ dS [] values m hm i hi
  constructor
  · intro c hc
    rw [Mapper.scoreRow_override cfg rof cs ctx _ c hc] at hrow
    injection hrow with h2
    rw [← h2]
    exact Mapper.forcedRow_getD cs c j hj
  · intro hov hp
    have hkeep : (List.map (passes cfg.filters (values.getD i dS) cs ctx) cs).getD j false = false := by
      rw [getD_map_gen (passes cfg.filters (values.getD i dS) cs ctx) dS cs j hj false]
      exact hp
    simp only [Mapper.scoreRow, hov] at hrow
    split at hrow
    case _ f hbase =>
      split at hrow
      case _ forced hr =>
        injection hrow with h2
        rw [← h2, Mapper.assembleForced_getD cs _ forced j hj, hkeep]
        simp
      case _ accs hr =>
        injection hrow with h2
        rw [← h2, Mapper.assembleScored_getD cs _ accs j hj, hkeep]
        simp
    case _ hbase =>
      split at hrow
      case _ hcont =>
        injection hrow with h2
        rw [← h2, Mapper.assembleForced_getD cs _ _ j hj, hkeep]
        simp
      case _ hcont =>
        split at hrow
        case _ forced hr =>
          injection hrow with h2
          rw [← h2, Mapper.assembleForced_getD cs _ forced j hj, hkeep]
          simp
        case _ hr =>
          split at hrow
          case _ hany => cases hrow
          case _ hany =>
            injection hrow with h2
            rw [← h2]
            rw [getD_map_gen (fun _ => Score.negInf) dS cs j hj Score.negInf]

/-- Witness for C6: the `c0`-only filter forces the cell (v0, c1) to minus
infinity even though the base score of that cell is 1. -/
theorem c6_witness :
    Mapper.computeScores cfgC6 none [v0] [c0, c1] none =
      .ok [[Score.fin 1, Score.negInf]] ∧
    passes cfgC6.filters v0 [c0, c1] none c1 = false ∧
    ([[Score.fin 1, Score.negInf]].getD 0 []).getD 1 Score.negInf =
      Score.negInf :=
  ⟨by decide, by decide,
    (c6_fixed_cells_never_altered cfgC6 none [v0] [c0, c1] none
      [[Score.fin 1, Score.negInf]] 0 1 (by decide) (by decide) (by decide)).2
      (by decide) (by decide)⟩

/-- C7: the Matcher's threshold is inclusive — a finite score exactly equal
to `min_score` is matchable while a strictly smaller one is not, and for the
selection step a cell holding a finite score strictly below the threshold
behaves exactly like a minus-infinity cell; finally a lone candidate scored
exactly at the threshold is chosen. -/
theorem c7_threshold_boundary :
    (∀ minScore : ℚ, matchable (Score.fin minScore) minScore = true) ∧
    (∀ q minScore : ℚ, q < minScore → matchable (Score.fin q) minScore = false) ∧
    (∀ (row : List Score) (avail : List Bool) (minScore q : ℚ) (j : Nat),
      q < minScore →
      selectBest (row.set j (Score.fin q)) avail minScore =
        selectBest (row.set j Score.negInf) avail minScore) ∧
    (∀ minScore : ℚ, selectBest [Score.fin minScore] [true] minScore =
      Selection.chosen 0) := by
  refine ⟨?_, ?_, ?_, ?_⟩
  · intro minScore
    simp [matchable]
  · intro q minScore h
    unfold matchable
    exact decide_eq_false (not_le.mpr h)
  · intro row avail minScore q j h
    exact selectBest_below_threshold_invariant row avail minScore q j h
  · intro minScore
    have hmi : matchableIdx [Score.fin minScore] [true] minScore = [0] := by
      simp [matchableIdx, matchable, List.range_succ]
    simp [selectBest, hmi, finScoresAt, maxQ, Score.isInf, List.filter_cons,
      List.filter_nil]

/-- Witness for C7: at the default threshold 0.9, a score of exactly 0.9 is
matchable and chosen, a score of 0 is not, and replacing a below-threshold
cell by minus infinity leaves the selection unchanged. -/
theorem c7_witness :
    matchable (Score.fin (mkRat 9 10)) (mkRat 9 10) = true ∧
    matchable (Score.fin 0) (mkRat 9 10) = false ∧
    selectBest ([Score.fin 1, Score.fin 1].set 1 (Score.fin 0)) [true, true]
        (mkRat 9 10) =
      selectBest ([Score.fin 1, Score.fin 1].set 1 Score.negInf) [true, true]
        (mkRat 9 10) ∧
    selectBest [Score.fin (mkRat 9 10)] [true] (mkRat 9 10) =
      Selection.chosen 0 :=
  ⟨c7_threshold_boundary.1 _,
   c7_threshold_boundary.2.1 0 _ (by decide),
   c7_threshold_boundary.2.2.1 _ _ _ 0 1 (by decide),
   c7_threshold_boundary.2.2.2 _⟩

namespace Mapper

theorem stepRow_error_eq (card : Cardinality) (minScore : ℚ) (row : List Score)
    (avail : List Bool) (e : MappingError)
    (h : stepRow card minScore row avail = .error e) : e = .ambiguousScore := by
  cases card with
  | ManyToMany => simp only [stepRow] at h; cases h
  | OneToOne =>
    simp only [stepRow] at h
    split at h
    · injection h with h2; exact h2.symm
    · cases h
    · cases h
  | OneToMany =>
    simp only [stepRow] at h
    split at h
    · injection h with h2; exact h2.symm
    · cases h
    · cases h
  | ManyToOne =>
    simp only [stepRow] at h
    split at h
    · injection h with h2; exact h2.symm
    · cases h
    · cases h

theorem matchValues_error_eq (card : Cardinality) (minScore : ℚ) :
    ∀ (rows : List (List Score)) (avail : List Bool) (e : MappingError),
      matchValues card minScore rows avail = .error e → e = .ambiguousScore := by
  intro rows
  induction rows with
  | nil => intro avail e h; simp only [matchValues] at h; cases h
  | cons row t ih =>
    intro avail e h
    simp only [matchValues] at h
    split at h
    next e' hs =>
      injection h with h2
      exact h2 ▸ stepRow_error_eq card minScore row avail e' hs
    next sa hs =>
      split at h
      next e' hmv =>
        injection h with h2
        exact h2 ▸ ih sa.2 e' hmv
      next => cases h

theorem needsScoring_true_of_error (cfg : MapperConfig)
    (rof : Option UserOverrideFn) (cs : List String) (ctx : Context) (v : String)
    (h : scoreRow cfg rof cs ctx v = .error .scoringDisabled) :
    needsScoring cfg rof cs ctx v = true := by
  simp only [scoreRow] at h
  split at h
  next c heq => cases h
  next heq =>
    split at h
    next f heqb =>
      split at h
      next => cases h
      next => cases h
    next heqb =>
      split at h
      next hcont => cases h
      next hcont =>
        split at h
        next forced heqf => cases h
        next heqf =>
          split at h
          next hany =>
            have hc2 : cs.contains v = false := by
              cases hcv : cs.contains v
              · rfl
              · exact absurd hcv hcont
            simp [needsScoring, heq, heqf, hany, hc2]
            simpa using hc2
          next hany => cases h

theorem scoreRow_disabled_error (cfg : MapperConfig)
    (rof : Option UserOverrideFn) (cs : List String) (ctx : Context) (v : String)
    (hb : cfg.base = .disabled)
    (hn : needsScoring cfg rof cs ctx v = true) :
    scoreRow cfg rof cs ctx v = .error .scoringDisabled := by
  simp only [needsScoring, Bool.and_eq_true] at hn
  obtain ⟨⟨⟨h1, h2⟩, h3⟩, h4⟩ := hn
  simp only [Option.isNone_iff_eq_none] at h1 h3
  simp only [Bool.not_eq_true'] at h2
  simp [scoreRow, h1, hb, h2, h3, h4]
  simpa using h2

end Mapper

/-- C8: once scoring and matching succeed, the `on_unmapped` policy alone
decides the outcome of `Mapper.apply`: with `raise` and a non-empty
unmatched list the call fails with `UnmappedValuesError` carrying exactly
those values; with `warn` the partial assignment is returned and the
diagnostic flag is set exactly when values are unmatched; with `ignore`
the partial assignment is returned silently; and `UnmappedValuesError` is
never raised when no value is unmatched. -/
theorem c8_on_unmapped_policy
    (cfg : MapperConfig) (rof : Option UserOverrideFn)
    (values cs : List String) (ctx : Context)
    (m : List (List Score)) (sels : List (List Nat))
    (hm : Mapper.computeScores cfg rof values cs ctx = .ok m)
    (hmv : Mapper.toDirectionalMapping cfg cs m = .ok sels) :
    (cfg.onUnmapped = .raiseError → Mapper.unmatchedOf values sels ≠ [] →
      Mapper.apply cfg rof values cs ctx =
        .error (.unmappedValues (Mapper.unmatchedOf values sels))) ∧
    (cfg.onUnmapped = .warn →
      Mapper.apply cfg rof values cs ctx =
        .ok ⟨Mapper.assemblePairs values cs sels, Mapper.unmatchedOf values sels,
          !(Mapper.unmatchedOf values sels).isEmpty⟩) ∧
    (cfg.onUnmapped = .ignore →
      Mapper.apply cfg rof values cs ctx =
        .ok ⟨Mapper.assemblePairs values cs sels, Mapper.unmatchedOf values sels,
          false⟩) ∧
    (Mapper.unmatchedOf values sels = [] →
      ∀ l, Mapper.apply cfg rof values cs ctx ≠ .error (.unmappedValues l)) := by
  refine ⟨?_, ?_, ?_, ?_⟩
  · intro hp hne
    have hne2 : (Mapper.unmatchedOf values sels).isEmpty = false := by
      cases hU : Mapper.unmatchedOf values sels with
      | nil => exact absurd hU hne
      | cons a t => rfl
    simp only [Mapper.apply, hm, hmv, hp, hne2]
    simp
  · intro hp
    simp only [Mapper.apply, hm, hmv, hp]
  · intro hp
    simp only [Mapper.apply, hm, hmv, hp]
  · intro hU l hc
    simp only [Mapper.apply, hm, hmv] at hc
    split at hc
    · split at hc
      next hemp => cases hc
      next hemp => exact hemp (by rw [hU]; rfl)
    · cases hc
    · cases hc

/-- Witness for C8: the tie-free doctest scenario leaves `v1` unmapped;
with policy raise the call fails with `UnmappedValuesError [v1]`, with
policy warn it returns the partial assignment with the diagnostic flag
set. -/
theorem c8_witness :
    Mapper.apply cfgC8r none [v0, v1] [c0, c1] none =
      .error (.unmappedValues [v1]) ∧
    Mapper.apply cfgC8w none [v0, v1] [c0, c1] none =
      .ok ⟨[(v0, c0)], [v1], true⟩ := by
  have h1 := (c8_on_unmapped_policy cfgC8r none [v0, v1] [c0, c1] none
    [[Score.fin 1, Score.fin (mkRat 1 2)], [Score.fin 1, Score.fin 0]]
    [[0], []] (by decide) (by decide)).1 rfl (by decide)
  have h2 := (c8_on_unmapped_policy cfgC8w none [v0, v1] [c0, c1] none
    [[Score.fin 1, Score.fin (mkRat 1 2)], [Score.fin 1, Score.fin 0]]
    [[0], []] (by decide) (by decide)).2.1 rfl
  exact ⟨h1.trans (by decide), h2.trans (by decide)⟩

/-- C9: in override-only mode (the explicit disabled base score function),
`Mapper.apply` raises `ScoringDisabledError` exactly when some value is
left for the score function to handle — no override, no identity candidate,
no short-circuit hit, and at least one candidate surviving the filters; if
every value is resolved by those mechanisms, `ScoringDisabledError` is not
raised. -/
theorem c9_scoring_disabled_error
    (cfg : MapperConfig) (rof : Option UserOverrideFn)
    (values cs : List String) (ctx : Context)
    (hb : cfg.base = .disabled) :
    ((∃ v ∈ values, needsScoring cfg rof cs ctx v = true) →
      Mapper.apply cfg rof values cs ctx = .error .scoringDisabled) ∧
    ((∀ v ∈ values, needsScoring cfg rof cs ctx v = false) →
      Mapper.apply cfg rof values cs ctx ≠ .error .scoringDisabled) := by
  constructor
  · rintro ⟨v, hv, hns⟩
    have he : Mapper.scoreRow cfg rof cs ctx v = .error .scoringDisabled :=
      Mapper.scoreRow_disabled_error cfg rof cs ctx v hb hns
    have hcs : Mapper.computeScores cfg rof values cs ctx =
        .error .scoringDisabled :=
      Mapper.mapME_error_of_mem _ _
        (fun a e' h' => Mapper.scoreRow_error_eq cfg rof cs ctx a e' h')
        values v hv he
    simp only [Mapper.apply, hcs]
  · intro hall hc
    have hok : ∀ v ∈ values, ∃ b, Mapper.scoreRow cfg rof cs ctx v = .ok b := by
      intro v hv
      cases hsr : Mapper.scoreRow cfg rof cs ctx v with
      | ok row => exact ⟨row, rfl⟩
      | error e =>
        have he := Mapper.scoreRow_error_eq cfg rof cs ctx v e hsr
        subst he
        have hns := Mapper.needsScoring_true_of_error cfg rof cs ctx v hsr
        rw [hall v hv] at hns
        cases hns
    obtain ⟨m, hm⟩ := Mapper.mapME_ok_of_forall _ values hok
    have hm2 : Mapper.computeScores cfg rof values cs ctx = .ok m := hm
    simp only [Mapper.apply, hm2] at hc
    split at hc
    next e htd =>
      injection hc with h2
      have hamb : e = .ambiguousScore := by
        simp only [Mapper.toDirectionalMapping] at htd
        exact Mapper.matchValues_error_eq cfg.cardinality cfg.minScore m
          (List.replicate cs.length true) e htd
      rw [hamb] at h2
      cases h2
    next sels htd =>
      split at hc
      · split at hc
        next => cases hc
        next =>
          injection hc with h2
          cases h2
      · cases hc
      · cases hc

/-- Witness for C9: with the disabled score function, a value with no
override and no identity candidate raises `ScoringDisabledError`, while a
value identical to a candidate does not. -/
theorem c9_witness :
    Mapper.apply cfgC9 none [v0] [c0] none = .error .scoringDisabled ∧
    Mapper.apply cfgC9 none [c0] [c0] none ≠ .error .scoringDisabled :=
  ⟨(c9_scoring_disabled_error cfgC9 none [v0] [c0] none rfl).1
      ⟨v0, by decide, by decide⟩,
   (c9_scoring_disabled_error cfgC9 none [c0] [c0] none rfl).2 (by decide)⟩

/-- C10: in override-only mode a value equal to one of the candidates is
automatically resolved to that identical candidate — its row carries plus
infinity exactly at the identity cells, with no `ScoringDisabledError` and
no override defined — and defining a dummy override for the value suppresses
the identity mapping (the identity cells become minus infinity). -/
theorem c10_identity_mapping_in_disabled_mode
    (cfg : MapperConfig) (rof : Option UserOverrideFn)
    (cs : List String) (ctx : Context) (v : String)
    (hb : cfg.base = .disabled)
    (hf : cfg.filters = [])
    (hid : cs.contains v = true) :
    (overrideChoice rof cfg.overrides v cs ctx = none →
      ∃ row, Mapper.scoreRow cfg rof cs ctx v = .ok row ∧
        ∀ j, j < cs.length →
          (row.getD j Score.negInf = Score.posInf ↔ cs.getD j dS = v)) ∧
    (∀ c, overrideChoice rof cfg.overrides v cs ctx = some c → c ≠ v →
      ∃ row, Mapper.scoreRow cfg rof cs ctx v = .ok row ∧
        ∀ j, j < cs.length → cs.getD j dS = v →
          row.getD j Score.negInf = Score.negInf) := by
  constructor
  · intro hov
    refine ⟨assembleForced cs (cs.map (passes cfg.filters v cs ctx))
      (identityIdx cs v), ?_, ?_⟩
    · simp only [Mapper.scoreRow, hov, hb]
      rw [if_pos hid]
    · intro j hj
      rw [Mapper.assembleForced_getD cs _ _ j hj]
      have hkeep : (cs.map (passes cfg.filters v cs ctx)).getD j false = true := by
        rw [getD_map_gen (passes cfg.filters v cs ctx) dS cs j hj false]
        simp [passes, hf]
      rw [hkeep]
      have hcon : (identityIdx cs v).contains j = true ↔ cs.getD j dS = v := by
        constructor
        · intro h2
          have hmem : j ∈ identityIdx cs v := by simpa using h2
          exact of_decide_eq_true (List.mem_filter.mp hmem).2
        · intro h2
          have hmem : j ∈ identityIdx cs v :=
            List.mem_filter.mpr ⟨List.mem_range.mpr hj, decide_eq_true h2⟩
          simpa using hmem
      by_cases hcj : (identityIdx cs v).contains j = true
      · simp only [hcj, if_true]
        exact iff_of_true (by simp) (hcon.mp hcj)
      · have hcj2 : (identityIdx cs v).contains j = false := by
          cases hx : (identityIdx cs v).contains j
          · rfl
          · exact absurd hx hcj
        simp only [hcj2]
        refine iff_of_false (by simp) (fun h2 => hcj (hcon.mpr h2))
  · intro c hc hne
    refine ⟨forcedRow cs c, Mapper.scoreRow_override cfg rof cs ctx v c hc, ?_⟩
    intro j hj hcv
    rw [Mapper.forcedRow_getD cs c j hj, hcv]
    rw [if_neg (fun h2 => hne h2.symm)]

/-- Witness for C10: value `c0` is automatically mapped to the identical
candidate `c0` in disabled mode, and the dummy override `c0 -> c1`
suppresses the identity cell. -/
theorem c10_witness :
    Mapper.apply cfgC9 none [c0] [c0, c1] none = .ok ⟨[(c0, c0)], [], false⟩ ∧
    (∃ row, Mapper.scoreRow cfgC9 none [c0, c1] none c0 = .ok row ∧
      ∀ j, j < 2 →
        (row.getD j Score.negInf = Score.posInf ↔ [c0, c1].getD j dS = c0)) ∧
    (∃ row, Mapper.scoreRow cfgC10o none [c0, c1] none c0 = .ok row ∧
      ∀ j, j < 2 → [c0, c1].getD j dS = c0 →
        row.getD j Score.negInf = Score.negInf) :=
  ⟨by decide,
   (c10_identity_mapping_in_disabled_mode cfgC9 none [c0, c1] none c0
      rfl rfl (by decide)).1 (by decide),
   (c10_identity_mapping_in_disabled_mode cfgC10o none [c0, c1] none c0
      rfl rfl (by decide)).2 c1 (by decide) (by decide)⟩

end IdTranslation
